import Mathlib

/-!
Shallow embedding of the barcode-family consensus core of cybmf:
the quality codec, the statistical base caller (Fisher flatten and the
fast-compare variant) from bmfmaw/BCFastq.pyx, and the alignment layout
model with the mate-pair merge from the MPA module.

Machine integers are modelled as Int/Nat (the source arithmetic stays far
from the 32/64-bit boundaries on the inputs considered here).  Floating
point chi-square accumulation is modelled over an arbitrary linearly
ordered additive monoid supplied by the caller, so every statement is
about the accumulation structure, not about float rounding.
-/

/- ---------------------------------------------------------------- -/
/- Quality / agreement codec (BCFastq.pyx PyArr2QualStr,
   cQualArr2QualStr; MPA PyLayout.cGetQualString uses the same
   element transform).                                              -/
/- ---------------------------------------------------------------- -/

/-- Element transform of PyArr2QualStr and of cGetQualString:
a phred value becomes the byte i + 33 when i < 94 and 126 otherwise. -/
def encodeQual (q : ℤ) : ℤ :=
  if q < 94 then q + 33 else 126

/-- PyArr2QualStr from BCFastq.pyx: maps the transform over the array. -/
def PyArr2QualStr (l : List ℤ) : List ℤ :=
  l.map encodeQual

/-- Decoding an ASCII quality byte back to a phred value: subtract 33.
Modelled from the spec: the codec section describes decode as the
inverse shift of the chr(min(q,93)+33) encoding. -/
def decodeQual (c : ℤ) : ℤ :=
  c - 33

/-- cQualArr2QualStr from BCFastq.pyx: clamp the value to 93 and then
translate through PH2CHR_TRANS.  Modelled from the spec for the
PH2CHR_TRANS table (not under src/): phred p maps to chr(p+33). -/
def cQualArr2QualStr (l : List ℤ) : List ℤ :=
  l.map (fun t => (if t < 94 then t else 93) + 33)

/-- cs_to_ph, the quality-string-to-phred conversion used throughout
BCFastq.pyx.  Modelled from the spec: chars decode by subtracting 33. -/
def cs_to_ph (l : List ℤ) : List ℤ :=
  l.map (fun c => c - 33)

/- ---------------------------------------------------------------- -/
/- LayoutPos and the pairwise position merge (MPA module).          -/
/- ---------------------------------------------------------------- -/

/-- One layout position: reference coordinate, in-read coordinate, base
and cigar operation as ASCII codes, quality, agreement count, merge
flags.  Fields mirror the cdef class LayoutPos. -/
structure LayoutPos where
  pos : ℤ
  readPos : ℤ
  base : ℤ
  operation : ℤ
  quality : ℤ
  agreement : ℤ
  merged : Bool
  mergeAgreed : ℤ
deriving DecidableEq, Repr

/-- LayoutPos constructor semantics from its Python init: the stored
quality is the argument unless the base is 78 (ASCII N), in which case
the stored quality is 0. -/
def LayoutPos.init (pos readPos base operation quality agreement : ℤ)
    (merged : Bool) (mergeAgreed : ℤ) : LayoutPos :=
  ⟨pos, readPos, base, operation,
    if base ≠ 78 then quality else 0, agreement, merged, mergeAgreed⟩

/-- Modelled from the spec: MergeAgreedQualities is not under src/; the
spec calls it a quality-boosting combination of two agreeing
observations, modelled as the sum of the two qualities. -/
def MergeAgreedQualities (q1 q2 : ℤ) : ℤ := q1 + q2

/-- Modelled from the spec: MergeDiscQualities is not under src/; the
spec calls it a quality-penalizing combination for two disagreeing
observations, modelled as the winning quality minus the losing one. -/
def MergeDiscQualities (q1 q2 : ℤ) : ℤ := q1 - q2

/-- cMergePositions from the MPA module, branch for branch.  The two
identical arms of the Python conditional at the equal-base
irreconcilable-operation case are collapsed into one. -/
def cMergePositions (p1 p2 : LayoutPos) : LayoutPos :=
  if p1.base = p2.base then
    if p2.operation = p1.operation then
      LayoutPos.init p1.pos p1.readPos p1.base p1.operation
        (MergeAgreedQualities p1.quality p2.quality)
        (p1.agreement + p2.agreement) true 2
    else if p2.operation = 83 then
      LayoutPos.init p1.pos p1.readPos p1.base p1.operation
        (MergeAgreedQualities p1.quality p2.quality)
        (p1.agreement + p2.agreement) true 2
    else if p1.operation = 83 then
      LayoutPos.init p2.pos p1.readPos p1.base p2.operation
        (MergeAgreedQualities p1.quality p2.quality)
        (p1.agreement + p2.agreement) true 2
    else
      LayoutPos.init p1.pos p1.readPos 78 78 (-137) (-137) true 0
  else if p1.operation = p2.operation then
    if p2.quality < p1.quality then
      LayoutPos.init p1.pos p1.readPos p1.base p1.operation
        (MergeDiscQualities p1.quality p2.quality) p1.agreement true 0
    else
      LayoutPos.init p1.pos p1.readPos p2.base p1.operation
        (MergeDiscQualities p2.quality p1.quality) p2.agreement true 0
  else
    if p2.base = 78 ∨ p2.operation = 83 then
      LayoutPos.init p1.pos p1.readPos p1.base p1.operation
        p1.quality p1.agreement true 0
    else
      LayoutPos.init p1.pos p1.readPos p1.base 78 (-137) (-137) true 0

/-- Overlap walk of cMergeLayoutsToList: iterate over the first layout
(for pos1 in L1[offset:]) while indexing the second with a cursor that
only advances when the branch taken increments count.  Reading past the
end of the second list (an IndexError in the source) is none. -/
def mergeWalk : List LayoutPos → List LayoutPos → Option (List LayoutPos)
  | [], l2 => some l2
  | _ :: _, [] => none
  | p1 :: t1, p2 :: t2 =>
    if p1.operation = p2.operation then
      (mergeWalk t1 t2).map (fun l => cMergePositions p1 p2 :: l)
    else if p1.operation = 68 then
      (mergeWalk t1 (p2 :: t2)).map (fun l => p1 :: l)
    else if p2.operation = 68 then
      (mergeWalk t1 t2).map (fun l => p2 :: l)
    else
      (mergeWalk t1 t2).map (fun l => cMergePositions p1 p2 :: l)

/-- Helper of cGetRefPosForFirstPos: first position with operation M
(77) yields its reference coordinate minus its index; none when no
mapped position exists (the source falls off the end of a cdef int). -/
def refPosFirstAux : List LayoutPos → ℕ → Option ℤ
  | [], _ => none
  | p :: t, k => if p.operation = 77 then some (p.pos - k) else refPosFirstAux t (k + 1)

/-- cGetRefPosForFirstPos from the MPA module. -/
def cGetRefPosForFirstPos (l : List LayoutPos) : Option ℤ :=
  refPosFirstAux l 0

/-- cMergeLayoutsToList from the MPA module.  The source's anchor swap
is reproduced as written: when L1 starts after L2 it does
tmpPos = L1; L1 = L2; del tmpPos, so L2 is never reassigned and both
names refer to the original L2 afterwards. -/
def cMergeLayoutsToList (l1 l2 : List LayoutPos) : Option (List LayoutPos) :=
  match cGetRefPosForFirstPos l1, cGetRefPosForFirstPos l2 with
  | some r1, some r2 =>
    let a := if r2 < r1 then l2 else l1
    let ra := if r2 < r1 then r2 else r1
    let off := (r2 - ra).toNat
    (mergeWalk (a.drop off) l2).map (fun rest => a.take off ++ rest)
  | _, _ => none

/- ---------------------------------------------------------------- -/
/- Claim theorems for the codec and the position merge.             -/
/- ---------------------------------------------------------------- -/

/-- C7: the quality codec encodes q as min(q,93)+33, always lands in
printable ASCII [33,126], and decoding after encoding gives min(q,93)
for 0 <= q <= 200. -/
theorem codec_roundtrip (q : ℤ) (h0 : 0 ≤ q) (h1 : q ≤ 200) :
    encodeQual q = min q 93 + 33 ∧
    33 ≤ encodeQual q ∧ encodeQual q ≤ 126 ∧
    decodeQual (encodeQual q) = min q 93 ∧
    PyArr2QualStr [q] = [min q 93 + 33] := by
  have hcase : encodeQual q = min q 93 + 33 := by
    unfold encodeQual
    rcases lt_or_le q 94 with h | h
    · rw [if_pos h, min_eq_left (by omega)]
    · rw [if_neg (by omega), min_eq_right (by omega)]
      omega

  refine ⟨hcase, ?_, ?_, ?_, ?_⟩
  · rw [hcase]; omega
  · rw [hcase]
    rcases le_total q 93 with h | h
    · rw [min_eq_left h]; omega
    · rw [min_eq_right h]; omega
  · rw [hcase]; unfold decodeQual; omega
  · unfold PyArr2QualStr
    simp [hcase]

/-- Witness for C7 at q = 100. -/
theorem codec_roundtrip_witness :
    encodeQual 100 = min 100 93 + 33 ∧
    33 ≤ encodeQual 100 ∧ encodeQual 100 ≤ 126 ∧
    decodeQual (encodeQual 100) = min 100 93 ∧
    PyArr2QualStr [100] = [min 100 93 + 33] :=
  codec_roundtrip 100 (by decide) (by decide)

/-- C10: LayoutPos.init zeroes the stored quality exactly when the base
argument is 78 (ASCII N); in particular the merge-disagreement branch of
cMergePositions that passes base 78 and quality -137 produces a position
whose stored quality is 0. -/
theorem layoutpos_n_quality_zero :
    (∀ pos readPos base operation quality agreement merged mergeAgreed,
      (LayoutPos.init pos readPos base operation quality agreement
        merged mergeAgreed).quality = if base = 78 then 0 else quality) ∧
    (∀ p1 p2 : LayoutPos, p1.base = p2.base →
      p2.operation ≠ p1.operation → p2.operation ≠ 83 → p1.operation ≠ 83 →
      (cMergePositions p1 p2).base = 78 ∧ (cMergePositions p1 p2).quality = 0) := by
  constructor
  · intro pos readPos base operation quality agreement merged mergeAgreed
    unfold LayoutPos.init
    by_cases h : base = 78
    · simp [h]
    · simp [h]
  · intro p1 p2 hbase hop hop2 hop1
    unfold cMergePositions
    rw [if_pos hbase, if_neg hop, if_neg hop2, if_neg hop1]
    unfold LayoutPos.init
    exact ⟨rfl, rfl⟩

/-- Witness for C10: the first part at base 78, quality 55, and the
second part at an M-versus-I equal-base pair. -/
theorem layoutpos_n_quality_zero_witness :
    (LayoutPos.init 7 3 78 77 55 4 false 1).quality = (if (78:ℤ) = 78 then (0:ℤ) else 55) ∧
    (cMergePositions ⟨9, 2, 65, 77, 30, 1, false, 1⟩ ⟨9, 2, 65, 73, 20, 1, false, 1⟩).base = 78 ∧
    (cMergePositions ⟨9, 2, 65, 77, 30, 1, false, 1⟩ ⟨9, 2, 65, 73, 20, 1, false, 1⟩).quality = 0 := by
  refine ⟨layoutpos_n_quality_zero.1 7 3 78 77 55 4 false 1, ?_, ?_⟩
  · exact (layoutpos_n_quality_zero.2 ⟨9, 2, 65, 77, 30, 1, false, 1⟩
      ⟨9, 2, 65, 73, 20, 1, false, 1⟩ (by decide) (by decide) (by decide) (by decide)).1
  · exact (layoutpos_n_quality_zero.2 ⟨9, 2, 65, 77, 30, 1, false, 1⟩
      ⟨9, 2, 65, 73, 20, 1, false, 1⟩ (by decide) (by decide) (by decide) (by decide)).2

/-- C3: merging two positions of equal operation kind: with equal bases
the result is merged-agreement, sums the agreement counts and its
quality is at least the larger input quality; with different bases the
result is merged-disagreement, takes a maximal-quality input's base and
its quality is at most the larger input quality.  The hypotheses state
that the inputs carry real observation qualities: nonnegative, and zero
on N bases as LayoutPos.init guarantees. -/
theorem merge_positions_quality_rules (p1 p2 : LayoutPos)
    (hop : p1.operation = p2.operation)
    (hq1 : 0 ≤ p1.quality) (hq2 : 0 ≤ p2.quality)
    (hn1 : p1.base = 78 → p1.quality = 0) (hn2 : p2.base = 78 → p2.quality = 0) :
    (p1.base = p2.base →
      (cMergePositions p1 p2).mergeAgreed = 2 ∧
      (cMergePositions p1 p2).agreement = p1.agreement + p2.agreement ∧
      max p1.quality p2.quality ≤ (cMergePositions p1 p2).quality) ∧
    (p1.base ≠ p2.base →
      (cMergePositions p1 p2).mergeAgreed = 0 ∧
      (cMergePositions p1 p2).quality ≤ max p1.quality p2.quality ∧
      (((cMergePositions p1 p2).base = p1.base ∧ p2.quality ≤ p1.quality) ∨
       ((cMergePositions p1 p2).base = p2.base ∧ p1.quality ≤ p2.quality))) := by
  constructor
  · intro hbase
    unfold cMergePositions
    rw [if_pos hbase, if_pos hop.symm]
    refine ⟨rfl, rfl, ?_⟩
    show max p1.quality p2.quality ≤
      if p1.base ≠ 78 then MergeAgreedQualities p1.quality p2.quality else 0
    by_cases hN : p1.base = 78
    · rw [if_neg (not_not_intro hN)]
      have h1 := hn1 hN
      have h2 := hn2 (hbase ▸ hN)
      omega
    · rw [if_pos hN]
      unfold MergeAgreedQualities
      omega
  · intro hbase
    unfold cMergePositions
    rw [if_neg hbase, if_pos hop]
    by_cases hlt : p2.quality < p1.quality
    · rw [if_pos hlt]
      refine ⟨rfl, ?_, Or.inl ⟨rfl, by omega⟩⟩
      show (if p1.base ≠ 78 then MergeDiscQualities p1.quality p2.quality else 0) ≤
        max p1.quality p2.quality
      by_cases hN : p1.base = 78
      · rw [if_neg (not_not_intro hN)]
        omega
      · rw [if_pos hN]
        unfold MergeDiscQualities
        omega
    · rw [if_neg hlt]
      refine ⟨rfl, ?_, Or.inr ⟨rfl, by omega⟩⟩
      show (if p2.base ≠ 78 then MergeDiscQualities p2.quality p1.quality else 0) ≤
        max p1.quality p2.quality
      by_cases hN : p2.base = 78
      · rw [if_neg (not_not_intro hN)]
        omega
      · rw [if_pos hN]
        unfold MergeDiscQualities
        omega

/-- Witness for C3: an agreeing pair and a disagreeing pair of M
positions. -/
theorem merge_positions_quality_rules_witness :
    ((⟨5, 1, 65, 77, 30, 1, false, 1⟩ : LayoutPos).base = (⟨5, 1, 65, 77, 20, 2, false, 1⟩ : LayoutPos).base →
      (cMergePositions ⟨5, 1, 65, 77, 30, 1, false, 1⟩ ⟨5, 1, 65, 77, 20, 2, false, 1⟩).mergeAgreed = 2 ∧
      (cMergePositions ⟨5, 1, 65, 77, 30, 1, false, 1⟩ ⟨5, 1, 65, 77, 20, 2, false, 1⟩).agreement = 1 + 2 ∧
      max (30:ℤ) 20 ≤ (cMergePositions ⟨5, 1, 65, 77, 30, 1, false, 1⟩ ⟨5, 1, 65, 77, 20, 2, false, 1⟩).quality) ∧
    ((⟨5, 1, 65, 77, 30, 1, false, 1⟩ : LayoutPos).base ≠ (⟨5, 1, 65, 77, 20, 2, false, 1⟩ : LayoutPos).base →
      (cMergePositions ⟨5, 1, 65, 77, 30, 1, false, 1⟩ ⟨5, 1, 65, 77, 20, 2, false, 1⟩).mergeAgreed = 0 ∧
      (cMergePositions ⟨5, 1, 65, 77, 30, 1, false, 1⟩ ⟨5, 1, 65, 77, 20, 2, false, 1⟩).quality ≤ max 30 20 ∧
      (((cMergePositions ⟨5, 1, 65, 77, 30, 1, false, 1⟩ ⟨5, 1, 65, 77, 20, 2, false, 1⟩).base = 65 ∧ (20:ℤ) ≤ 30) ∨
       ((cMergePositions ⟨5, 1, 65, 77, 30, 1, false, 1⟩ ⟨5, 1, 65, 77, 20, 2, false, 1⟩).base = 65 ∧ (30:ℤ) ≤ 20))) :=
  merge_positions_quality_rules ⟨5, 1, 65, 77, 30, 1, false, 1⟩ ⟨5, 1, 65, 77, 20, 2, false, 1⟩
    (by decide) (by decide) (by decide) (by decide) (by decide)

/-- C4 counterexample: with an M position on the first side and a
deletion heading the second side, the walk emits the deletion, advances
BOTH cursors, and the first side's non-deletion M position is absent
from the output. -/
theorem merge_walk_drops_position :
    mergeWalk [⟨100, 5, 67, 77, 30, 1, false, 1⟩]
      [⟨100, -1, 68, 68, -1, -1, false, 1⟩, ⟨101, 6, 65, 77, 25, 1, false, 1⟩] =
      some [⟨100, -1, 68, 68, -1, -1, false, 1⟩, ⟨101, 6, 65, 77, 25, 1, false, 1⟩] ∧
    (⟨100, 5, 67, 77, 30, 1, false, 1⟩ : LayoutPos) ∉
      [(⟨100, -1, 68, 68, -1, -1, false, 1⟩ : LayoutPos), ⟨101, 6, 65, 77, 25, 1, false, 1⟩] := by
  constructor
  · decide
  · decide

/-- C4 amended: when the operations differ, a deletion at the head of
the first side is emitted without advancing the second side's cursor,
so the second side's position meets the first side's next position; but
a deletion at the head of the second side is emitted while BOTH cursors
advance, dropping the first side's current non-deletion position from
the walk output. -/
theorem merge_walk_deletion_cursor (p1 p2 : LayoutPos) (t1 t2 : List LayoutPos)
    (hop : p1.operation ≠ p2.operation) :
    (p1.operation = 68 →
      mergeWalk (p1 :: t1) (p2 :: t2) = (mergeWalk t1 (p2 :: t2)).map (fun l => p1 :: l)) ∧
    (p1.operation ≠ 68 → p2.operation = 68 →
      mergeWalk (p1 :: t1) (p2 :: t2) = (mergeWalk t1 t2).map (fun l => p2 :: l)) := by
  constructor
  · intro hd
    simp only [mergeWalk, if_neg hop, if_pos hd]
  · intro hnd hd
    simp only [mergeWalk, if_neg hop, if_neg hnd, if_pos hd]

/-- Witness for the amended C4 at singleton layouts on each side. -/
theorem merge_walk_deletion_cursor_witness :
    (((⟨100, -1, 68, 68, -1, -1, false, 1⟩ : LayoutPos)).operation = 68 →
      mergeWalk [⟨100, -1, 68, 68, -1, -1, false, 1⟩] [⟨100, 5, 67, 77, 30, 1, false, 1⟩] =
        (mergeWalk [] [⟨100, 5, 67, 77, 30, 1, false, 1⟩]).map
          (fun l => (⟨100, -1, 68, 68, -1, -1, false, 1⟩ : LayoutPos) :: l)) ∧
    (((⟨100, -1, 68, 68, -1, -1, false, 1⟩ : LayoutPos)).operation ≠ 68 →
      ((⟨100, 5, 67, 77, 30, 1, false, 1⟩ : LayoutPos)).operation = 68 →
      mergeWalk [⟨100, -1, 68, 68, -1, -1, false, 1⟩] [⟨100, 5, 67, 77, 30, 1, false, 1⟩] =
        (mergeWalk [] []).map (fun l => (⟨100, 5, 67, 77, 30, 1, false, 1⟩ : LayoutPos) :: l)) :=
  merge_walk_deletion_cursor ⟨100, -1, 68, 68, -1, -1, false, 1⟩
    ⟨100, 5, 67, 77, 30, 1, false, 1⟩ [] [] (by decide)

/-- C5: evaluation at a failing input for the anchor swap.  The first
layout is a single M position at reference 1 with base C (67); the
second a single M position at reference 0 with base A (65).  Because the
source swap never reassigns L2, the function merges the second layout
with itself: the output is the self-merge of the A position and contains
no position carrying the first layout's base. -/
theorem merge_layouts_swap_bug :
    cMergeLayoutsToList [⟨1, 0, 67, 77, 30, 1, false, 1⟩] [⟨0, 0, 65, 77, 30, 1, false, 1⟩] =
      some [⟨0, 0, 65, 77, 60, 2, true, 2⟩] ∧
    ∀ p ∈ [(⟨0, 0, 65, 77, 60, 2, true, 2⟩ : LayoutPos)], p.base ≠ 67 := by
  constructor
  · decide
  · decide

/- ---------------------------------------------------------------- -/
/- CIGAR expansion to layout positions (MPA makeLayoutTuple,
   CigarOpToLayoutPosList) and the run-length collapse
   (cGetCigarString).                                               -/
/- ---------------------------------------------------------------- -/

/-- Cigar opcode to ASCII operation char through "MIDNSHP=X", the table
named in the LayoutPos docstring.  Modelled from the spec for
CigarOpToCigarChar, which is not under src/. -/
def cigarOpToCigarChar (c : ℕ) : ℤ :=
  ([77, 73, 68, 78, 83, 72, 80, 61, 88] : List ℤ).getD c 0

/-- One aligned read as consumed by the layout model: cigar operation
list, bases, per-base qualities (PV or query qualities), per-base
agreement (FA or all ones), and the mapped reference start. -/
structure SamRec where
  cigar : List (ℕ × ℕ)
  seq : List ℤ
  quals : List ℤ
  agrees : List ℤ
  pos : ℤ
deriving DecidableEq, Repr

/-- Aligned (query, reference) pairs contributed by one cigar
operation.  Modelled from the spec: section 4.3 fixes the expansion of
each operation kind (match: both coordinates; insertion and soft-clip:
query only; deletion and reference skip: reference only), which is the
behaviour of the pysam aligned_pairs the source slices. -/
def alignedPairsOp (op n : ℕ) (qpos rpos : ℤ) : List (Option ℤ × Option ℤ) :=
  if op = 0 ∨ op = 7 ∨ op = 8 then
    (List.range n).map (fun k : ℕ => (some (qpos + (k : ℤ)), some (rpos + (k : ℤ))))
  else if op = 1 ∨ op = 4 then
    (List.range n).map (fun k : ℕ => (some (qpos + (k : ℤ)), none))
  else if op = 2 ∨ op = 3 then
    (List.range n).map (fun k : ℕ => (none, some (rpos + (k : ℤ))))
  else []

/-- Query-coordinate advance of one cigar operation. -/
def qAdvance (op n : ℕ) : ℤ :=
  if op = 0 ∨ op = 1 ∨ op = 4 ∨ op = 7 ∨ op = 8 then n else 0

/-- Reference-coordinate advance of one cigar operation. -/
def rAdvance (op n : ℕ) : ℤ :=
  if op = 0 ∨ op = 2 ∨ op = 3 ∨ op = 7 ∨ op = 8 then n else 0

/-- Aligned pairs of a whole cigar starting at the given coordinates. -/
def alignedPairsAux : List (ℕ × ℕ) → ℤ → ℤ → List (Option ℤ × Option ℤ)
  | [], _, _ => []
  | (op, n) :: t, qpos, rpos =>
    alignedPairsOp op n qpos rpos ++
      alignedPairsAux t (qpos + qAdvance op n) (rpos + rAdvance op n)

/-- Aligned pairs of a read: query coordinates from 0, reference
coordinates from the mapped start. -/
def alignedPairs (rec : SamRec) : List (Option ℤ × Option ℤ) :=
  alignedPairsAux rec.cigar 0 rec.pos

/-- Conditional-expression body of CigarOpToLayoutPosList, one aligned
pair to one layout position.  Both-coordinates pairs become M (77)
positions; query-only pairs take the operation char of the enclosing
cigar operation; reference-only pairs become deletion placeholders with
base D (68) and absent quality.  The branches that would index the read
sequence with None in the source (reference-only pair under a soft-clip
char, or a pair with neither coordinate) are none. -/
def layoutPosOfPair (cigarChar : ℤ) (rec : SamRec) :
    Option ℤ × Option ℤ → Option LayoutPos
  | (some x0, some x1) =>
    some (LayoutPos.init x1 x0 (rec.seq.getD x0.toNat 0) 77
      (rec.quals.getD x0.toNat 0) (rec.agrees.getD x0.toNat 0) false 1)
  | (some x0, none) =>
    some (LayoutPos.init (-1) x0 (rec.seq.getD x0.toNat 0) cigarChar
      (rec.quals.getD x0.toNat 0) (rec.agrees.getD x0.toNat 0) false 1)
  | (none, some x1) =>
    if cigarChar = 83 then none
    else some (LayoutPos.init x1 (-1) 68 68 (-1) (-1) false 1)
  | (none, none) => none

/-- Option-valued map used to express the element-wise conversion of a
slice of aligned pairs; none as soon as one element fails. -/
def mapO {β γ : Type} (g : β → Option γ) : List β → Option (List γ)
  | [] => some []
  | x :: t =>
    match g x, mapO g t with
    | some y, some r => some (y :: r)
    | _, _ => none

/-- CigarOpToLayoutPosList from the MPA module: convert the slice
aligned_pairs[offset : offset + cigarLen] of the read's aligned pairs. -/
def CigarOpToLayoutPosList (offset cigarOp cigarLen : ℕ) (rec : SamRec) :
    Option (List LayoutPos) :=
  mapO (layoutPosOfPair (cigarOpToCigarChar cigarOp) rec)
    (((alignedPairs rec).drop offset).take cigarLen)

/-- Loop body of makeLayoutTuple: expand each cigar operation at its
running offset and concatenate. -/
def makeLayoutAux (rec : SamRec) : List (ℕ × ℕ) → ℕ → Option (List LayoutPos)
  | [], _ => some []
  | (op, n) :: t, offset =>
    match CigarOpToLayoutPosList offset op n rec, makeLayoutAux rec t (offset + n) with
    | some blk, some rest => some (blk ++ rest)
    | _, _ => none

/-- Position list built by makeLayoutTuple. -/
def makeLayoutPosList (rec : SamRec) : Option (List LayoutPos) :=
  makeLayoutAux rec rec.cigar 0

/-- Prepending one value to a run-length encoding: extend the first run
when the value matches, else open a new run. -/
def rleCons (a : ℤ) : List (ℤ × ℕ) → List (ℤ × ℕ)
  | [] => [(a, 1)]
  | (b, n) :: r => if a = b then (b, n + 1) :: r else (a, 1) :: (b, n) :: r

/-- Run-length encoding of a list, as produced by groupby over the
operations in cGetCigarString. -/
def rle : List ℤ → List (ℤ × ℕ)
  | [] => []
  | a :: t => rleCons a (rle t)

/-- Operation-level content of cGetCigarString: run-length encoding of
the position operations (each run rendered by opLenToStr in the
source). -/
def cGetCigarOps (l : List LayoutPos) : List (ℤ × ℕ) :=
  rle (l.map LayoutPos.operation)

/-- Adjacent first components of a run list are pairwise distinct. -/
def adjacentDistinct {β : Type} [DecidableEq β] : List (β × ℕ) → Bool
  | [] => true
  | [_] => true
  | p :: q :: t => (p.1 != q.1) && adjacentDistinct (q :: t)

/-- Each allowed cigar operation contributes exactly its length in
aligned pairs. -/
theorem alignedPairsOp_length (op n : ℕ) (q r : ℤ)
    (h : op ∈ ([0, 1, 2, 4] : List ℕ)) :
    (alignedPairsOp op n q r).length = n := by
  simp only [List.mem_cons, List.mem_singleton, List.not_mem_nil, or_false] at h
  rcases h with h | h | h | h <;> subst h
  · rw [alignedPairsOp, if_pos (by norm_num), List.length_map, List.length_range]
  · rw [alignedPairsOp, if_neg (by norm_num), if_pos (by norm_num),
      List.length_map, List.length_range]
  · rw [alignedPairsOp, if_neg (by norm_num), if_neg (by norm_num),
      if_pos (by norm_num), List.length_map, List.length_range]
  · rw [alignedPairsOp, if_neg (by norm_num), if_pos (by norm_num),
      List.length_map, List.length_range]

/-- Mapping an option-valued function that succeeds with a constant
projection on every element of a list. -/
theorem mapO_forall_some {β γ : Type} (g : β → Option γ) (f : γ → ℤ) (ch : ℤ) :
    ∀ l : List β, (∀ x ∈ l, ∃ y, g x = some y ∧ f y = ch) →
    ∃ blk, mapO g l = some blk ∧ blk.map f = List.replicate l.length ch
  | [], _ => ⟨[], rfl, rfl⟩
  | x :: t, h => by
    obtain ⟨y, hy, hfy⟩ := h x (List.mem_cons_self x t)
    obtain ⟨blk, hblk, hmap⟩ := mapO_forall_some g f ch t
      (fun z hz => h z (List.mem_cons_of_mem x hz))
    refine ⟨y :: blk, ?_, ?_⟩
    · simp [mapO, hy, hblk]
    · simp [hmap, hfy, List.replicate_succ]

/-- Converting the aligned-pair block of one allowed cigar operation
succeeds and yields positions whose operation char is the operation's
cigar char. -/
theorem block_ops (op n : ℕ) (rec : SamRec) (q r : ℤ)
    (h : op ∈ ([0, 1, 2, 4] : List ℕ)) :
    ∃ blk, mapO (layoutPosOfPair (cigarOpToCigarChar op) rec)
        (alignedPairsOp op n q r) = some blk ∧
      blk.map LayoutPos.operation = List.replicate n (cigarOpToCigarChar op) := by
  have helem : ∀ x ∈ alignedPairsOp op n q r,
      ∃ y, layoutPosOfPair (cigarOpToCigarChar op) rec x = some y ∧
        y.operation = cigarOpToCigarChar op := by
    intro x hx
    simp only [List.mem_cons, List.mem_singleton, List.not_mem_nil, or_false] at h
    rcases h with h | h | h | h <;> subst h
    · rw [alignedPairsOp, if_pos (by norm_num)] at hx
      obtain ⟨k, -, rfl⟩ := List.mem_map.mp hx
      exact ⟨_, rfl, rfl⟩
    · rw [alignedPairsOp, if_neg (by norm_num), if_pos (by norm_num)] at hx
      obtain ⟨k, -, rfl⟩ := List.mem_map.mp hx
      exact ⟨_, rfl, rfl⟩
    · rw [alignedPairsOp, if_neg (by norm_num), if_neg (by norm_num),
        if_pos (by norm_num)] at hx
      obtain ⟨k, -, rfl⟩ := List.mem_map.mp hx
      exact ⟨_, rfl, rfl⟩
    · rw [alignedPairsOp, if_neg (by norm_num), if_pos (by norm_num)] at hx
      obtain ⟨k, -, rfl⟩ := List.mem_map.mp hx
      exact ⟨_, rfl, rfl⟩
  obtain ⟨blk, h1, h2⟩ := mapO_forall_some
    (layoutPosOfPair (cigarOpToCigarChar op) rec) LayoutPos.operation
    (cigarOpToCigarChar op) (alignedPairsOp op n q r) helem
  exact ⟨blk, h1, by rw [h2, alignedPairsOp_length op n q r h]⟩

/-- Expanding a cigar suffix whose aligned pairs sit at the running
offset succeeds and produces the concatenation of one operation-char
run per cigar operation. -/
theorem makeLayoutAux_ops (rec : SamRec) :
    ∀ (c : List (ℕ × ℕ)) (offset : ℕ) (q r : ℤ),
    (∀ p ∈ c, p.1 ∈ ([0, 1, 2, 4] : List ℕ)) →
    (alignedPairs rec).drop offset = alignedPairsAux c q r →
    ∃ l, makeLayoutAux rec c offset = some l ∧
      l.map LayoutPos.operation =
        (c.map (fun p => List.replicate p.2 (cigarOpToCigarChar p.1))).flatten
  | [], offset, q, r, _, _ => ⟨[], rfl, rfl⟩
  | (op, n) :: t, offset, q, r, hops, hdrop => by
    have hop : op ∈ ([0, 1, 2, 4] : List ℕ) := (hops (op, n) (List.mem_cons_self _ _))
    have hlen := alignedPairsOp_length op n q r hop
    have hblkslice : ((alignedPairs rec).drop offset).take n = alignedPairsOp op n q r := by
      rw [hdrop]
      show (alignedPairsOp op n q r ++
        alignedPairsAux t (q + qAdvance op n) (r + rAdvance op n)).take n = _
      rw [List.take_left' hlen]
    have hrest : (alignedPairs rec).drop (offset + n) =
        alignedPairsAux t (q + qAdvance op n) (r + rAdvance op n) := by
      rw [← List.drop_drop, hdrop]
      show (alignedPairsOp op n q r ++
        alignedPairsAux t (q + qAdvance op n) (r + rAdvance op n)).drop n = _
      rw [List.drop_left' hlen]
    obtain ⟨blk, hblk, hblkops⟩ := block_ops op n rec q r hop
    obtain ⟨rest, hmrest, hrestops⟩ := makeLayoutAux_ops rec t (offset + n)
      (q + qAdvance op n) (r + rAdvance op n)
      (fun p hp => hops p (List.mem_cons_of_mem _ hp)) hrest
    refine ⟨blk ++ rest, ?_, ?_⟩
    · have : CigarOpToLayoutPosList offset op n rec = some blk := by
        rw [CigarOpToLayoutPosList, hblkslice, hblk]
      simp [makeLayoutAux, this, hmrest]
    · simp [hblkops, hrestops]

/-- First element of a run-length encoding is the head of the list. -/
theorem rle_head : ∀ (l : List ℤ) (b : ℤ) (m : ℕ) (r2 : List (ℤ × ℕ)),
    rle l = (b, m) :: r2 → l.head? = some b
  | [], b, m, r2, h => by simp [rle] at h
  | a :: t, b, m, r2, h => by
    rw [rle] at h
    rcases ht : rle t with _ | ⟨⟨c, k⟩, r3⟩
    · rw [ht, rleCons] at h
      simp only [List.cons.injEq, Prod.mk.injEq] at h
      simp [List.head?, h.1.1]
    · rw [ht, rleCons] at h
      by_cases hac : a = c
      · rw [if_pos hac] at h
        simp only [List.cons.injEq, Prod.mk.injEq] at h
        simp [List.head?, hac, h.1.1]
      · rw [if_neg hac] at h
        simp only [List.cons.injEq, Prod.mk.injEq] at h
        simp [List.head?, h.1.1]

/-- Run-length encoding of a nonempty constant run followed by a list
that does not start with the run's value. -/
theorem rle_replicate_append (a : ℤ) (l : List ℤ)
    (hhead : ∀ x, l.head? = some x → x ≠ a) :
    ∀ n : ℕ, 1 ≤ n → rle (List.replicate n a ++ l) = (a, n) :: rle l := by
  intro n
  induction n with
  | zero => omega
  | succ m ih =>
    intro _
    rcases Nat.eq_zero_or_pos m with hm | hm
    · subst hm
      show rle (a :: l) = (a, 1) :: rle l
      rw [rle]
      rcases hl : rle l with _ | ⟨⟨b, k⟩, r2⟩
      · rfl
      · have hba := hhead b (rle_head l b k r2 hl)
        rw [rleCons, if_neg (fun hab => hba (hab.symm))]
    · have hrec := ih hm
      show rle (a :: (List.replicate m a ++ l)) = (a, m + 1) :: rle l
      rw [rle, hrec, rleCons, if_pos rfl]

/-- Head of the flattened run list of a cons. -/
theorem flatten_runs_head (b : ℤ) (m : ℕ) (t2 : List (ℤ × ℕ)) (hm : 1 ≤ m) :
    ((((b, m) :: t2).map (fun p => List.replicate p.2 p.1)).flatten).head? = some b := by
  rcases m with _ | k
  · omega
  · simp [List.replicate_succ]

/-- Run-length encoding is a left inverse of run expansion for run
lists with positive lengths and distinct adjacent values. -/
theorem rle_flatten_runs :
    ∀ c : List (ℤ × ℕ), (∀ p ∈ c, 1 ≤ p.2) → adjacentDistinct c = true →
    rle ((c.map (fun p => List.replicate p.2 p.1)).flatten) = c
  | [], _, _ => rfl
  | (a, n) :: t, hpos, hadj => by
    have hn : 1 ≤ n := hpos (a, n) (List.mem_cons_self _ _)
    have hhead : ∀ x, ((t.map (fun p => List.replicate p.2 p.1)).flatten).head? = some x → x ≠ a := by
      intro x hx
      rcases t with _ | ⟨⟨b, m⟩, t2⟩
      · simp at hx
      · have hm : 1 ≤ m := hpos (b, m) (List.mem_cons_of_mem _ (List.mem_cons_self _ _))
        rw [flatten_runs_head b m t2 hm] at hx
        have hbx : b = x := Option.some.inj hx
        subst hbx
        have hand : ((a != b) && adjacentDistinct ((b, m) :: t2)) = true := hadj
        have hne := (Bool.and_eq_true ..).mp hand
        exact fun hxa => bne_iff_ne.mp hne.1 (hxa ▸ rfl)
    have htadj : adjacentDistinct t = true := by
      rcases t with _ | ⟨p2, t2⟩
      · rfl
      · have hand : ((a != p2.1) && adjacentDistinct (p2 :: t2)) = true := hadj
        exact ((Bool.and_eq_true ..).mp hand).2
    have hrec := rle_flatten_runs t (fun p hp => hpos p (List.mem_cons_of_mem _ hp)) htadj
    show rle (List.replicate n a ++ (t.map (fun p => List.replicate p.2 p.1)).flatten) = _
    rw [rle_replicate_append a _ hhead n hn, hrec]

/-- Mapping cigar opcodes in {0,1,2,4} to their operation chars keeps
adjacent run values distinct. -/
theorem adjacentDistinct_map_char :
    ∀ c : List (ℕ × ℕ), (∀ p ∈ c, p.1 ∈ ([0, 1, 2, 4] : List ℕ)) →
    adjacentDistinct c = true →
    adjacentDistinct (c.map (fun p => (cigarOpToCigarChar p.1, p.2))) = true
  | [], _, _ => rfl
  | [_], _, _ => rfl
  | p :: q :: t, hmem, hadj => by
    have hand : ((p.1 != q.1) && adjacentDistinct (q :: t)) = true := hadj
    obtain ⟨hne, hrest⟩ := (Bool.and_eq_true ..).mp hand
    have hrec := adjacentDistinct_map_char (q :: t)
      (fun z hz => hmem z (List.mem_cons_of_mem _ hz)) hrest
    have hpq : p.1 ≠ q.1 := bne_iff_ne.mp hne
    have hp1 := hmem p (List.mem_cons_self _ _)
    have hq1 := hmem q (List.mem_cons_of_mem _ (List.mem_cons_self _ _))
    have hcne : cigarOpToCigarChar p.1 ≠ cigarOpToCigarChar q.1 := by
      simp only [List.mem_cons, List.mem_singleton, List.not_mem_nil, or_false] at hp1 hq1
      rcases hp1 with h1 | h1 | h1 | h1 <;> rcases hq1 with h2 | h2 | h2 | h2 <;>
        rw [h1, h2] <;>
        first
          | exact absurd (h1.trans h2.symm) hpq
          | decide
    show ((cigarOpToCigarChar p.1 != cigarOpToCigarChar q.1) &&
      adjacentDistinct ((q :: t).map (fun p => (cigarOpToCigarChar p.1, p.2)))) = true
    exact (Bool.and_eq_true ..).mpr ⟨bne_iff_ne.mpr hcne, hrec⟩

/-- C6: for a well-formed cigar over {M, I, D, S} opcodes with positive
lengths and distinct adjacent operations, expanding the read into its
layout position list succeeds and the run-length collapse of the
position operations reproduces the cigar operation list exactly. -/
theorem cigar_layout_roundtrip (rec : SamRec)
    (hops : ∀ p ∈ rec.cigar, p.1 ∈ ([0, 1, 2, 4] : List ℕ) ∧ 1 ≤ p.2)
    (hadj : adjacentDistinct rec.cigar = true) :
    ∃ l, makeLayoutPosList rec = some l ∧
      cGetCigarOps l = rec.cigar.map (fun p => (cigarOpToCigarChar p.1, p.2)) := by
  obtain ⟨l, hmk, hl⟩ := makeLayoutAux_ops rec rec.cigar 0 0 rec.pos
    (fun p hp => (hops p hp).1) (by rw [List.drop_zero]; rfl)
  refine ⟨l, hmk, ?_⟩
  rw [cGetCigarOps, hl]
  have hmm : rec.cigar.map (fun p => List.replicate p.2 (cigarOpToCigarChar p.1)) =
      (rec.cigar.map (fun p => (cigarOpToCigarChar p.1, p.2))).map
        (fun p => List.replicate p.2 p.1) := by
    rw [List.map_map]
    rfl
  rw [hmm]
  apply rle_flatten_runs
  · intro p hp
    obtain ⟨q0, hq0, rfl⟩ := List.mem_map.mp hp
    exact (hops q0 hq0).2
  · exact adjacentDistinct_map_char rec.cigar (fun p hp => (hops p hp).1) hadj

/-- Witness for C6 at the cigar 1S 2M 1I 1D 1M. -/
theorem cigar_layout_roundtrip_witness :
    ∃ l, makeLayoutPosList
        ⟨[(4, 1), (0, 2), (1, 1), (2, 1), (0, 1)],
         [65, 65, 67, 71, 84], [30, 31, 32, 33, 34], [1, 1, 1, 1, 1], 10⟩ = some l ∧
      cGetCigarOps l = ([(4, 1), (0, 2), (1, 1), (2, 1), (0, 1)] : List (ℕ × ℕ)).map
        (fun p => (cigarOpToCigarChar p.1, p.2)) :=
  cigar_layout_roundtrip
    ⟨[(4, 1), (0, 2), (1, 1), (2, 1), (0, 1)],
     [65, 65, 67, 71, 84], [30, 31, 32, 33, 34], [1, 1, 1, 1, 1], 10⟩
    (by decide) (by decide)

/- ---------------------------------------------------------------- -/
/- Fisher flatten (BCFastq.pyx cFisherFlatten and the
   cFastFisherFlattening wrapper).  The double-valued chi-square
   accumulation is carried in an arbitrary ordered additive carrier
   supplied through the chi2 and invchi parameters.                 -/
/- ---------------------------------------------------------------- -/

/-- Accumulation state of cFisherFlatten: the 4*rLen chi-square sums,
the 4*rLen observation counts and the last-written count index
(ndIndex), which the source declares once outside the loop. -/
structure FisherState (α : Type) where
  chiSums : List α
  counts : List ℕ
  ndIndex : ℕ
deriving Repr

/-- Adding into one cell of a flat array. -/
def addAt {α : Type} [Add α] [Zero α] (l : List α) (i : ℕ) (x : α) : List α :=
  l.set i (l.getD i 0 + x)

/-- One iteration of the cFisherFlatten accumulation loop.  The four
base branches set ndIndex and add chi2 at the observed base's cell and
invchi at the other three cells; the N branch changes nothing; the
count increment at ndIndex sits after the branch dispatch and runs
unconditionally, exactly as in the source. -/
def fisherStep {α : Type} [Add α] [Zero α] (rLen : ℕ) (chi2 invchi : ℤ → α)
    (st : FisherState α) (qi : ℕ) (b q : ℤ) : FisherState α :=
  let offset := qi % rLen
  let st2 : FisherState α :=
    if b = 67 then
      ⟨addAt (addAt (addAt (addAt st.chiSums (offset + rLen) (chi2 q))
          offset (invchi q)) (offset + 2 * rLen) (invchi q)) (offset + 3 * rLen) (invchi q),
        st.counts, offset + rLen⟩
    else if b = 71 then
      ⟨addAt (addAt (addAt (addAt st.chiSums (offset + 2 * rLen) (chi2 q))
          offset (invchi q)) (offset + rLen) (invchi q)) (offset + 3 * rLen) (invchi q),
        st.counts, offset + 2 * rLen⟩
    else if b = 84 then
      ⟨addAt (addAt (addAt (addAt st.chiSums (offset + 3 * rLen) (chi2 q))
          offset (invchi q)) (offset + rLen) (invchi q)) (offset + 2 * rLen) (invchi q),
        st.counts, offset + 3 * rLen⟩
    else if b = 65 then
      ⟨addAt (addAt (addAt (addAt st.chiSums offset (chi2 q))
          (offset + rLen) (invchi q)) (offset + 2 * rLen) (invchi q)) (offset + 3 * rLen) (invchi q),
        st.counts, offset⟩
    else st
  ⟨st2.chiSums, st2.counts.set st2.ndIndex (st2.counts.getD st2.ndIndex 0 + 1), st2.ndIndex⟩

/-- The accumulation loop of cFisherFlatten over the flattened
(base, quality) observations, query index counting up from the given
start. -/
def fisherLoop {α : Type} [Add α] [Zero α] (rLen : ℕ) (chi2 invchi : ℤ → α) :
    List (ℤ × ℤ) → ℕ → FisherState α → FisherState α
  | [], _, st => st
  | (b, q) :: t, qi, st =>
    fisherLoop rLen chi2 invchi t (qi + 1) (fisherStep rLen chi2 invchi st qi b q)

/-- Zeroed accumulation state (calloc in the source). -/
def initFisherState {α : Type} [Zero α] (rLen : ℕ) : FisherState α :=
  ⟨List.replicate (4 * rLen) 0, List.replicate (4 * rLen) 0, 0⟩

/-- Modelled from the spec: the same accumulation applied to the family
with every (read, position) observation whose base is N removed; a
removed observation leaves the state untouched while later observations
keep their original positions.  This is the comparison object of the
spec sentence that N bases contribute nothing. -/
def fisherStepNRemoved {α : Type} [Add α] [Zero α] (rLen : ℕ) (chi2 invchi : ℤ → α)
    (st : FisherState α) (qi : ℕ) (b q : ℤ) : FisherState α :=
  if b = 67 ∨ b = 71 ∨ b = 84 ∨ b = 65 then fisherStep rLen chi2 invchi st qi b q else st

/-- Modelled from the spec: loop companion of fisherStepNRemoved. -/
def fisherLoopNRemoved {α : Type} [Add α] [Zero α] (rLen : ℕ) (chi2 invchi : ℤ → α) :
    List (ℤ × ℤ) → ℕ → FisherState α → FisherState α
  | [], _, st => st
  | (b, q) :: t, qi, st =>
    fisherLoopNRemoved rLen chi2 invchi t (qi + 1) (fisherStepNRemoved rLen chi2 invchi st qi b q)

/-- Modelled from the spec: argmax4 is not under src/; the spec fixes
first-maximum selection in declaration order A, C, G, T. -/
def argmax4 {α : Type} [LinearOrder α] (a b c d : α) : ℕ :=
  if b ≤ a ∧ c ≤ a ∧ d ≤ a then 0
  else if c ≤ b ∧ d ≤ b then 1
  else if d ≤ c then 2
  else 3

/-- Modelled from the spec: ARGMAX_CONV maps the argmax index to the
base letter in declaration order A, C, G, T. -/
def ARGMAX_CONV (n : ℕ) : ℤ :=
  ([65, 67, 71, 84] : List ℤ).getD n 65

/-- Underflow clamp of the recalibrated quality in cFisherFlatten: keep
the rounded value when positive, else emit the sentinel 3114. -/
def emittedQual (t : ℤ) : ℤ :=
  if 0 < t then t else 3114

/-- Result triple of cFisherFlatten. -/
structure SeqQual where
  Seq : List ℤ
  Qual : List ℤ
  Agree : List ℤ
deriving DecidableEq, Repr

/-- cFisherFlatten from BCFastq.pyx: run the accumulation loop over the
flattened observations, then per position pick the argmax base, emit the
clamped recalibrated quality of the winning cell and its count.  The
rounded igamc recalibration is abstracted as the recal parameter. -/
def cFisherFlatten {α : Type} [Add α] [Zero α] [LinearOrder α]
    (chi2 invchi : ℤ → α) (recal : ℕ → α → ℤ)
    (seqs quals : List ℤ) (rLen nRecs : ℕ) : SeqQual :=
  let st := fisherLoop rLen chi2 invchi ((seqs.zip quals).take (rLen * nRecs)) 0
    (initFisherState rLen)
  let amax := fun i : ℕ => argmax4 (st.chiSums.getD i 0) (st.chiSums.getD (i + rLen) 0)
    (st.chiSums.getD (i + 2 * rLen) 0) (st.chiSums.getD (i + 3 * rLen) 0)
  ⟨(List.range rLen).map (fun i => ARGMAX_CONV (amax i)),
   (List.range rLen).map (fun i =>
     emittedQual (recal (st.counts.getD (i + amax i * rLen) 0)
       (st.chiSums.getD (i + amax i * rLen) 0))),
   (List.range rLen).map (fun i => (st.counts.getD (i + amax i * rLen) 0 : ℤ))⟩

/-- One fastq record as consumed by the consolidation functions:
sequence and quality string as ASCII code lists. -/
structure FastqRec where
  sequence : List ℤ
  quality : List ℤ
deriving DecidableEq, Repr, Inhabited

/-- Consensus record content: family size FM, disagreement count ND,
agreement array FA, recalibrated qualities PV, consensus sequence and
emitted quality string. -/
structure ConsensusRecord where
  fm : ℕ
  nd : ℤ
  fa : List ℤ
  pv : List ℤ
  seq : List ℤ
  qual : List ℤ
deriving DecidableEq, Repr

/-- MaxOriginalQuals from BCFastq.pyx: per-position maximum of the
original phred qualities over the family, with the calloc zero floor. -/
def maxOriginalQuals (R : List FastqRec) (rLen : ℕ) : List ℤ :=
  (List.range rLen).map (fun i => (R.map (fun r => (cs_to_ph r.quality).getD i 0)).foldl max 0)

/-- cFastFisherFlattening from BCFastq.pyx at record level: a family of
one is emitted verbatim with FM=1, ND=0 and an FA string of one 1 per
position; a larger family is flattened through cFisherFlatten. -/
def cFastFisherFlattening {α : Type} [Add α] [Zero α] [LinearOrder α]
    (chi2 invchi : ℤ → α) (recal : ℕ → α → ℤ) (R : List FastqRec) :
    Option ConsensusRecord :=
  match R with
  | [] => none
  | rec :: rest =>
    let nRecs := (rec :: rest).length
    let rLen := rec.sequence.length
    if nRecs = 1 then
      some ⟨1, 0, 1 :: List.replicate (rLen - 1) 1, cs_to_ph rec.quality,
        rec.sequence, rec.quality⟩
    else
      let seqs := ((rec :: rest).map FastqRec.sequence).flatten
      let quals := ((rec :: rest).map (fun r => cs_to_ph r.quality)).flatten
      let ret := cFisherFlatten chi2 invchi recal seqs quals rLen nRecs
      some ⟨nRecs, (nRecs : ℤ) * rLen - ret.Agree.sum, ret.Agree, ret.Qual, ret.Seq,
        maxOriginalQuals (rec :: rest) rLen⟩

/-- C1: a family of size one is emitted verbatim: the consensus carries
the input sequence and quality string unchanged, FM=1, ND=0 and FA
equal to 1 at every one of the read's positions. -/
theorem size_one_family_verbatim {α : Type} [Add α] [Zero α] [LinearOrder α]
    (chi2 invchi : ℤ → α) (recal : ℕ → α → ℤ) (rec : FastqRec)
    (h : 1 ≤ rec.sequence.length) :
    cFastFisherFlattening chi2 invchi recal [rec] =
      some ⟨1, 0, List.replicate rec.sequence.length 1, cs_to_ph rec.quality,
        rec.sequence, rec.quality⟩ := by
  have hrep : (1 : ℤ) :: List.replicate (rec.sequence.length - 1) 1 =
      List.replicate rec.sequence.length 1 := by
    rcases hL : rec.sequence.length with _ | k
    · omega
    · simp [List.replicate_succ]
  show some (⟨1, 0, 1 :: List.replicate (rec.sequence.length - 1) 1, cs_to_ph rec.quality,
    rec.sequence, rec.quality⟩ : ConsensusRecord) = _
  rw [hrep]

/-- Witness for C1 at a one-base read. -/
theorem size_one_family_verbatim_witness :
    cFastFisherFlattening (fun _ => (0 : ℤ)) (fun _ => (0 : ℤ)) (fun _ _ => 0)
      [⟨[65], [63]⟩] =
      some ⟨1, 0, List.replicate (([65] : List ℤ)).length 1, cs_to_ph [63], [65], [63]⟩ :=
  size_one_family_verbatim (fun _ => (0 : ℤ)) (fun _ => (0 : ℤ)) (fun _ _ => 0)
    ⟨[65], [63]⟩ (by decide)

/-- C2: evaluation of the accumulation at the failing family
(one read A at quality 30, one read N at quality 30, read length 1).
The source's unconditional count increment runs on the N observation
with the stale ndIndex, so the A cell counts 2 observations; removing
the N observation gives 1, and the two count arrays differ, against the
claim that N observations contribute nothing to the counts. -/
theorem fisher_n_count_bug :
    (fisherLoop 1 (fun _ => (0 : ℤ)) (fun _ => (0 : ℤ))
      [((65 : ℤ), (30 : ℤ)), (78, 30)] 0 (initFisherState 1)).counts = [2, 0, 0, 0] ∧
    (fisherLoopNRemoved 1 (fun _ => (0 : ℤ)) (fun _ => (0 : ℤ))
      [((65 : ℤ), (30 : ℤ)), (78, 30)] 0 (initFisherState 1)).counts = [1, 0, 0, 0] ∧
    (fisherLoop 1 (fun _ => (0 : ℤ)) (fun _ => (0 : ℤ))
      [((65 : ℤ), (30 : ℤ)), (78, 30)] 0 (initFisherState 1)).counts ≠
      (fisherLoopNRemoved 1 (fun _ => (0 : ℤ)) (fun _ => (0 : ℤ))
        [((65 : ℤ), (30 : ℤ)), (78, 30)] 0 (initFisherState 1)).counts := by
  refine ⟨by decide, by decide, by decide⟩

/-- C8: the recalibrated quality clamp of cFisherFlatten turns every
negative (or zero) rounded value into the sentinel 3114, and every
quality cFisherFlatten emits is strictly positive. -/
theorem fisher_qual_sentinel (t : ℤ) :
    (t < 0 → emittedQual t = 3114) ∧ 0 < emittedQual t ∧
    (∀ (α : Type) [Add α] [Zero α] [LinearOrder α] (chi2 invchi : ℤ → α)
      (recal : ℕ → α → ℤ) (seqs quals : List ℤ) (rLen nRecs : ℕ) (q : ℤ),
      q ∈ (cFisherFlatten chi2 invchi recal seqs quals rLen nRecs).Qual → 0 < q) := by
  refine ⟨?_, ?_, ?_⟩
  · intro ht
    unfold emittedQual
    rw [if_neg (by omega)]
  · unfold emittedQual
    split_ifs with h0
    · exact h0
    · omega
  · intro α _ _ _ chi2 invchi recal seqs quals rLen nRecs q hq
    simp only [cFisherFlatten, List.mem_map, List.mem_range] at hq
    obtain ⟨i, -, rfl⟩ := hq
    unfold emittedQual
    split_ifs with h0
    · exact h0
    · omega

/-- Witness for C8: the clamp at -2 and a concrete run whose only
emitted quality is 37. -/
theorem fisher_qual_sentinel_witness :
    emittedQual (-2) = 3114 ∧ (0 : ℤ) < emittedQual (-2) ∧ (0 : ℤ) < 37 := by
  refine ⟨(fisher_qual_sentinel (-2)).1 (by decide), (fisher_qual_sentinel (-2)).2.1, ?_⟩
  exact (fisher_qual_sentinel (-2)).2.2 ℤ (fun _ => 0) (fun _ => 0) (fun _ _ => 37)
    [65] [30] 1 1 37 (by decide)

/- ---------------------------------------------------------------- -/
/- Fast compare consensus (BCFastq.pyx cCompareFqRecsFast).         -/
/- ---------------------------------------------------------------- -/

/-- Column sum of the family's phred qualities restricted to one base:
qualX[seqArray != X] = 0 followed by the column sum. -/
def fcQualSum (R : List FastqRec) (b : ℤ) (i : ℕ) : ℤ :=
  (R.map (fun rec =>
    if rec.sequence.getD i 0 = b then (cs_to_ph rec.quality).getD i 0 else 0)).sum

/-- Argmax over the four stacked per-base column sums, first maximum in
row order A, C, G, T as np.argmax returns. -/
def fcArgmax (R : List FastqRec) (i : ℕ) : ℕ :=
  argmax4 (fcQualSum R 65 i) (fcQualSum R 67 i) (fcQualSum R 71 i) (fcQualSum R 84 i)

/-- Consensus base at one position through ARGMAX_TRANSLATE_STRING. -/
def fcNewSeq (R : List FastqRec) (i : ℕ) : ℤ :=
  ARGMAX_CONV (fcArgmax R i)

/-- Per-position consensus quality, np.amax over the four sums. -/
def fcPhredQual (R : List FastqRec) (i : ℕ) : ℤ :=
  max (max (fcQualSum R 65 i) (fcQualSum R 67 i))
    (max (fcQualSum R 71 i) (fcQualSum R 84 i))

/-- Per-position agreement: how many reads carry the consensus base. -/
def fcFA (R : List FastqRec) (i : ℕ) : ℤ :=
  ((R.filter (fun rec => rec.sequence.getD i 0 = fcNewSeq R i)).length : ℤ)

/-- The FA array over all positions. -/
def fcFAList (R : List FastqRec) (rLen : ℕ) : List ℤ :=
  (List.range rLen).map (fcFA R)

/-- np.min of the FA array (meaningful for a positive read length). -/
def fcMinFA (R : List FastqRec) (rLen : ℕ) : ℤ :=
  (fcFAList R rLen).foldl min ((fcFAList R rLen).headD 0)

/-- np.max of the FA array (meaningful for a positive read length). -/
def fcMaxFA (R : List FastqRec) (rLen : ℕ) : ℤ :=
  (fcFAList R rLen).foldl max ((fcFAList R rLen).headD 0)

/-- cCompareFqRecsFast from BCFastq.pyx at record level: size-one
families are emitted verbatim; otherwise per-position argmax of summed
qualities, zeroing of qualities below minPVFrac of the family maximum,
and the family-level nulling that zeroes every quality when the minimum
agreement falls below minFAFrac*N or the maximum agreement stays below
minMaxFA*N.  An empty read length makes np.min raise, modelled none. -/
def cCompareFqRecsFast (minPVFrac minFAFrac minMaxFA : ℚ) (R : List FastqRec) :
    Option ConsensusRecord :=
  match R with
  | [] => none
  | rec :: rest =>
    let nRecs := (rec :: rest).length
    let rLen := rec.sequence.length
    if nRecs = 1 then
      some ⟨1, 0, 1 :: List.replicate (rLen - 1) 1, cs_to_ph rec.quality,
        rec.sequence, rec.quality⟩
    else if rLen = 0 then none
    else
      let phredQuals := (List.range rLen).map (fcPhredQual (rec :: rest))
      let tmpFlt : ℤ := phredQuals.foldl max (phredQuals.headD 0)
      let pq2 := phredQuals.map (fun q : ℤ =>
        if (q : ℚ) < minPVFrac * (tmpFlt : ℚ) then (0 : ℤ) else q)
      let pq3 := if (fcMinFA (rec :: rest) rLen : ℚ) < minFAFrac * (nRecs : ℚ) ∨
          (fcMaxFA (rec :: rest) rLen : ℚ) < minMaxFA * (nRecs : ℚ) then
        List.replicate rLen (0 : ℤ)
      else pq2
      let pq4 := pq3.map (fun q => if q < 0 then 0 else q)
      some ⟨nRecs, (nRecs : ℤ) * rLen - (fcFAList (rec :: rest) rLen).sum,
        fcFAList (rec :: rest) rLen, pq4,
        (List.range rLen).map (fcNewSeq (rec :: rest)), cQualArr2QualStr pq4⟩

/-- C9: for a family of at least two reads, when the minimum
per-position agreement count falls below 0.2*N or the maximum never
reaches 0.9*N (stated in cross-multiplied integer form), the emitted
consensus quality is 0 at every position: the PV array is all zeros and
the quality string is all chr(33). -/
theorem fastcompare_discordant_null (R : List FastqRec) (rec : FastqRec)
    (rest : List FastqRec) (hR : R = rec :: rest) (hn : 2 ≤ R.length)
    (hl : 1 ≤ rec.sequence.length)
    (hcond : 5 * fcMinFA R rec.sequence.length < (R.length : ℤ) ∨
      10 * fcMaxFA R rec.sequence.length < 9 * (R.length : ℤ)) :
    ∃ out, cCompareFqRecsFast (1/10) (1/5) (9/10) R = some out ∧
      out.pv = List.replicate rec.sequence.length 0 ∧
      out.qual = List.replicate rec.sequence.length 33 := by
  subst hR
  have hlen1 : (rec :: rest).length ≠ 1 := by
    simp only [List.length_cons] at hn ⊢
    omega
  have hrlen : rec.sequence.length ≠ 0 := by omega
  have hq : ((fcMinFA (rec :: rest) rec.sequence.length : ℤ) : ℚ) <
      1/5 * (((rec :: rest).length : ℕ) : ℚ) ∨
      ((fcMaxFA (rec :: rest) rec.sequence.length : ℤ) : ℚ) <
      9/10 * (((rec :: rest).length : ℕ) : ℚ) := by
    rcases hcond with h | h
    · left
      have h2 : ((5 * fcMinFA (rec :: rest) rec.sequence.length : ℤ) : ℚ) <
          (((rec :: rest).length : ℤ) : ℚ) := by exact_mod_cast h
      push_cast at h2 ⊢
      linarith
    · right
      have h2 : ((10 * fcMaxFA (rec :: rest) rec.sequence.length : ℤ) : ℚ) <
          ((9 * ((rec :: rest).length : ℤ) : ℤ) : ℚ) := by exact_mod_cast h
      push_cast at h2 ⊢
      linarith
  have hmap : (List.replicate rec.sequence.length (0 : ℤ)).map
      (fun q => if q < 0 then 0 else q) = List.replicate rec.sequence.length 0 := by
    rw [List.map_replicate]
    norm_num
  have hqual : cQualArr2QualStr (List.replicate rec.sequence.length (0 : ℤ)) =
      List.replicate rec.sequence.length 33 := by
    unfold cQualArr2QualStr
    rw [List.map_replicate]
    norm_num
  have heq : cCompareFqRecsFast (1/10) (1/5) (9/10) (rec :: rest) =
      some ⟨(rec :: rest).length,
        ((rec :: rest).length : ℤ) * rec.sequence.length -
          (fcFAList (rec :: rest) rec.sequence.length).sum,
        fcFAList (rec :: rest) rec.sequence.length,
        (List.replicate rec.sequence.length (0 : ℤ)).map (fun q => if q < 0 then 0 else q),
        (List.range rec.sequence.length).map (fcNewSeq (rec :: rest)),
        cQualArr2QualStr ((List.replicate rec.sequence.length (0 : ℤ)).map
          (fun q => if q < 0 then 0 else q))⟩ := by
    simp only [cCompareFqRecsFast]
    rw [if_neg hlen1, if_neg hrlen, if_pos hq]
  refine ⟨_, heq, ?_, ?_⟩
  · exact hmap
  · show cQualArr2QualStr ((List.replicate rec.sequence.length (0 : ℤ)).map
      (fun q => if q < 0 then 0 else q)) = _
    rw [hmap]
    exact hqual

/-- Witness for C9: two one-base reads A and C at equal quality; the
maximum agreement is 1 < 0.9*2, so the whole consensus is nulled. -/
theorem fastcompare_discordant_null_witness :
    ∃ out, cCompareFqRecsFast (1/10) (1/5) (9/10)
        [⟨[65], [93]⟩, ⟨[67], [93]⟩] = some out ∧
      out.pv = List.replicate (([65] : List ℤ)).length 0 ∧
      out.qual = List.replicate (([65] : List ℤ)).length 33 :=
  fastcompare_discordant_null [⟨[65], [93]⟩, ⟨[67], [93]⟩] ⟨[65], [93]⟩ [⟨[67], [93]⟩]
    rfl (by decide) (by decide) (by decide)
